import Mathlib

/-!
# Verification of the Fintra Monte-Carlo engine (`mc_engine`)

Shallow embedding of `src/mc_engine/src/monte_carlo.cpp` and
`src/mc_engine/include/monte_carlo.h` (namespace `mc`).

Modelling conventions:
* C++ `double` values are modelled as exact rationals (`ℚ`); the arithmetic
  (`+`, `-`, `*`, `/`, comparisons) is the exact-field counterpart of the
  floating-point operations in the source.
* `std::sqrt` has no exact counterpart on `ℚ`; every definition that needs it
  is parametrised by a function `fsqrt : ℚ → ℚ` standing for the
  floating-point square root (a deterministic function on doubles).  No claim
  below depends on the values of `fsqrt`.
* The pseudo-random engine `std::mt19937_64` is a deterministic word stream
  seeded once at construction.  We model its state as a natural number with a
  concrete deterministic 64-bit step `rngNext`; `std::shuffle` (a full
  Fisher-Yates-type permutation driven by the stream) is modelled by `shuffle`,
  which draws one index per remaining position, and
  `std::uniform_int_distribution<size_t>(0, n-1)` applied to the engine is
  modelled as one draw reduced `% n`.  Every theorem below holds for every
  rng state, so none depends on this concrete choice of stream.
* `MonteCarloAnalysis result;` in C++ default-initialises the struct, leaving
  its scalar members indeterminate until assigned.  Members that `runAnalysis`
  assigns only conditionally or never are modelled as `Option ℚ`, where `none`
  means "never written by the function".
-/

namespace MC

/-- One step of the pseudo-random word stream (models drawing the next 64-bit
word from the `std::mt19937_64` member `rng_`; a concrete deterministic
linear-congruential step, reduced mod `2 ^ 64`). -/
def rngNext (s : Nat) : Nat × Nat :=
  let s' := (6364136223846793005 * s + 1442695040888963407) % 2 ^ 64
  (s', s')

/-- `struct Trade` from `monte_carlo.h` (lines 22-28). -/
structure Trade where
  entry_price : ℚ
  exit_price : ℚ
  days_held : ℤ
  pnl_pct : ℚ
  is_win : Bool
  deriving DecidableEq, Repr

/-- `struct SimulationConfig` from `monte_carlo.h` (lines 10-20). -/
structure SimulationConfig where
  num_simulations : ℕ
  seed : ℕ
  initial_capital : ℚ
  risk_per_trade : ℚ
  atr_multiplier : ℚ
  tax_rate : ℚ
  use_position_shuffle : Bool
  use_return_permutation : Bool
  use_bootstrap : Bool
  deriving DecidableEq, Repr

/-- `struct SimulationResult` from `monte_carlo.h` (lines 30-37).
`num_trades` is a C++ `int`; every value the engine stores in it is a
non-negative size or quotient, so it is modelled as `ℕ`. -/
structure SimulationResult where
  final_value : ℚ
  total_return_pct : ℚ
  max_drawdown_pct : ℚ
  num_trades : ℕ
  win_rate : ℚ
  sharpe_ratio : ℚ
  deriving DecidableEq, Repr

/-- `struct MonteCarloAnalysis` from `monte_carlo.h` (lines 39-70).
The `Option ℚ` members are the `double` members that `runAnalysis` either
never assigns (the two p-values and the three `original_*` members) or
assigns only when the pooled return list is non-empty
(`distribution_min` / `distribution_max`); `none` models the member being
left in its default-initialised (indeterminate) state. -/
structure MonteCarloAnalysis where
  simulations : List SimulationResult
  p_value_strategy_vs_random : Option ℚ
  p_value_strategy_vs_bootstrap : Option ℚ
  percentile_5 : ℚ
  percentile_25 : ℚ
  percentile_50 : ℚ
  percentile_75 : ℚ
  percentile_95 : ℚ
  ci_lower_95 : ℚ
  ci_upper_95 : ℚ
  original_return : Option ℚ
  original_sharpe : Option ℚ
  original_max_dd : Option ℚ
  return_distribution : List ℕ
  distribution_min : Option ℚ
  distribution_max : Option ℚ
  seed_used : ℕ
  num_trials : ℕ
  deriving DecidableEq, Repr

/-- The engine state: the `std::mt19937_64` stream state plus the three stored
input sequences (`MonteCarloEngine` private members, `monte_carlo.h`
lines 87-91). -/
structure MonteCarloEngine where
  rng : ℕ
  original_trades : List Trade
  daily_returns : List ℚ
  prices : List ℚ
  deriving DecidableEq, Repr

/-- `MonteCarloEngine::MonteCarloEngine(uint32_t seed)` (`monte_carlo.cpp`
line 8): the rng is seeded with `seed`, or with a value drawn from
`std::random_device` when `seed == 0`; `entropy` models that
environment-supplied value. -/
def MonteCarloEngine.init (seed entropy : ℕ) : MonteCarloEngine :=
  { rng := if seed = 0 then entropy else seed
    original_trades := []
    daily_returns := []
    prices := [] }

/-- `MonteCarloEngine::setTrades` (`monte_carlo.cpp` lines 10-12). -/
def MonteCarloEngine.setTrades (e : MonteCarloEngine) (trades : List Trade) :
    MonteCarloEngine :=
  { e with original_trades := trades }

/-- `MonteCarloEngine::setReturns` (`monte_carlo.cpp` lines 14-16). -/
def MonteCarloEngine.setReturns (e : MonteCarloEngine) (returns : List ℚ) :
    MonteCarloEngine :=
  { e with daily_returns := returns }

/-- `MonteCarloEngine::setPrices` (`monte_carlo.cpp` lines 18-20). -/
def MonteCarloEngine.setPrices (e : MonteCarloEngine) (prices : List ℚ) :
    MonteCarloEngine :=
  { e with prices := prices }

/-- `std::shuffle(v.begin(), v.end(), rng_)`: produce a permutation of the
list driven by the rng stream, one draw per remaining position (select the
element at the drawn index, then continue on the rest).  `fuel` bounds the
recursion; it is instantiated with the list length, and the permutation
property holds for every fuel value. -/
def shuffleGo : ℕ → List ℚ → ℕ → List ℚ × ℕ
  | 0, l, s => (l, s)
  | _ + 1, [], s => ([], s)
  | fuel + 1, a :: as, s =>
    let r := (rngNext s).1
    let s' := (rngNext s).2
    let x := (a :: as).getD (r % (as.length + 1)) a
    let p := shuffleGo fuel ((a :: as).erase x) s'
    (x :: p.1, p.2)

/-- Full shuffle of a list, threading the rng state. -/
def shuffle (l : List ℚ) (s : ℕ) : List ℚ × ℕ :=
  shuffleGo l.length l s

/-- The equity-curve replay shared by all three generators
(`monte_carlo.cpp` lines 92-100, 140-151, 195-203): starting capital
followed by one compounded value per step. -/
def equityCurve (capital : ℚ) (pnls : List ℚ) : List ℚ :=
  match pnls with
  | [] => [capital]
  | p :: ps => capital :: equityCurve (capital * (1 + p)) ps

/-- The final capital after compounding (the `capital` accumulator of the
replay loops). -/
def finalCapital (capital : ℚ) (pnls : List ℚ) : ℚ :=
  pnls.foldl (fun c p => c * (1 + p)) capital

/-- `MonteCarloEngine::calculateMaxDrawdown` (`monte_carlo.cpp`
lines 252-269). -/
def calculateMaxDrawdown (equity_curve : List ℚ) : ℚ :=
  match equity_curve with
  | [] => 0
  | c0 :: _ =>
    let step := fun (pd : ℚ × ℚ) (value : ℚ) =>
      let peak := if value > pd.1 then value else pd.1
      let drawdown := (peak - value) / peak
      (peak, if drawdown > pd.2 then drawdown else pd.2)
    (equity_curve.foldl step (c0, 0)).2 * 100

/-- The step-over-step returns derived from an equity curve
(`monte_carlo.cpp` lines 228-233): `(v[i] - v[i-1]) / v[i-1]`. -/
def stepReturns (equity_curve : List ℚ) : List ℚ :=
  match equity_curve with
  | [] => []
  | [_] => []
  | a :: b :: rest => (b - a) / a :: stepReturns (b :: rest)

/-- `MonteCarloEngine::calculateSharpeRatio` (`monte_carlo.cpp`
lines 224-250), parametrised by the floating-point square root `fsqrt`. -/
def calculateSharpeRatio (fsqrt : ℚ → ℚ) (equity_curve : List ℚ) : ℚ :=
  if equity_curve.length < 2 then 0
  else
    let returns := stepReturns equity_curve
    if returns = [] then 0
    else
      let sum := returns.foldl (· + ·) (0 : ℚ)
      let mean := sum / returns.length
      let sq_sum :=
        returns.foldl (fun acc r => acc + (r - mean) * (r - mean)) (0 : ℚ)
      let std_dev := fsqrt (sq_sum / returns.length)
      if std_dev = 0 then 0 else mean / std_dev * fsqrt 252

/-- The per-path result built from an outcome-sequence of fractional P&L
values; this is the verbatim body shared by `runPositionShuffle`
(`monte_carlo.cpp` lines 92-116) and `runBootstrap` (lines 194-216):
compounding replay from 100000, return %, max drawdown, trade count from the
sequence length, win rate recounted from the sequence, Sharpe ratio. -/
def simFromPnls (fsqrt : ℚ → ℚ) (pnls : List ℚ) : SimulationResult :=
  let capital := finalCapital 100000 pnls
  let curve := equityCurve 100000 pnls
  { final_value := capital
    total_return_pct := (capital - 100000) / 100000 * 100
    max_drawdown_pct := calculateMaxDrawdown curve
    num_trades := pnls.length
    win_rate :=
      if pnls = [] then 0
      else ((pnls.countP fun p => decide (0 < p)) : ℚ) / pnls.length * 100
    sharpe_ratio := calculateSharpeRatio fsqrt curve }

/-- The per-path result built by `runReturnPermutation` (`monte_carlo.cpp`
lines 140-159): same replay, but `num_trades` is the fixed
`num_days / 20` heuristic and `win_rate` is the fixed 50 % random-walk
assumption. -/
def simFromPermuted (fsqrt : ℚ → ℚ) (num_days : ℕ) (permuted : List ℚ) :
    SimulationResult :=
  let capital := finalCapital 100000 permuted
  let curve := equityCurve 100000 permuted
  { final_value := capital
    total_return_pct := (capital - 100000) / 100000 * 100
    max_drawdown_pct := calculateMaxDrawdown curve
    num_trades := num_days / 20
    win_rate := 50
    sharpe_ratio := calculateSharpeRatio fsqrt curve }

/-- The `for (int i = 0; ...)` loop of `runPositionShuffle`
(`monte_carlo.cpp` lines 86-119): shuffle the P&L sequence and evaluate, `n`
times, threading the rng state. -/
def shufflePaths (fsqrt : ℚ → ℚ) (pnls : List ℚ) :
    ℕ → ℕ → List SimulationResult × ℕ
  | 0, s => ([], s)
  | n + 1, s =>
    let sh := shuffle pnls s
    let p := shufflePaths fsqrt pnls n sh.2
    (simFromPnls fsqrt sh.1 :: p.1, p.2)

/-- `MonteCarloEngine::runPositionShuffle` (`monte_carlo.cpp` lines 71-122);
returns the per-path results together with the engine rng state after the
call. -/
def runPositionShuffle (fsqrt : ℚ → ℚ) (e : MonteCarloEngine) (n : ℕ) :
    List SimulationResult × ℕ :=
  if e.original_trades = [] then ([], e.rng)
  else
    let trade_pnls := e.original_trades.map fun t => t.pnl_pct / 100
    shufflePaths fsqrt trade_pnls n e.rng

/-- The `for (int i = 0; ...)` loop of `runReturnPermutation`
(`monte_carlo.cpp` lines 134-162). -/
def permutationPaths (fsqrt : ℚ → ℚ) (returns : List ℚ) (num_days : ℕ) :
    ℕ → ℕ → List SimulationResult × ℕ
  | 0, s => ([], s)
  | n + 1, s =>
    let sh := shuffle returns s
    let p := permutationPaths fsqrt returns num_days n sh.2
    (simFromPermuted fsqrt num_days sh.1 :: p.1, p.2)

/-- `MonteCarloEngine::runReturnPermutation` (`monte_carlo.cpp`
lines 124-165). -/
def runReturnPermutation (fsqrt : ℚ → ℚ) (e : MonteCarloEngine) (n : ℕ) :
    List SimulationResult × ℕ :=
  if e.daily_returns = [] then ([], e.rng)
  else permutationPaths fsqrt e.daily_returns e.daily_returns.length n e.rng

/-- The inner sampling loop of `runBootstrap` (`monte_carlo.cpp`
lines 189-192): draw `k` indices uniformly (modelled as one rng word reduced
`% len`) and collect the sampled elements. -/
def bootstrapDraws (pnls : List ℚ) : ℕ → ℕ → List ℚ × ℕ
  | 0, s => ([], s)
  | k + 1, s =>
    let idx := (rngNext s).1 % pnls.length
    let p := bootstrapDraws pnls k (rngNext s).2
    (pnls.getD idx 0 :: p.1, p.2)

/-- The `for (int i = 0; ...)` loop of `runBootstrap` (`monte_carlo.cpp`
lines 184-219): sample with replacement a sequence of the original length,
then evaluate it exactly as the shuffle paths are. -/
def bootstrapPaths (fsqrt : ℚ → ℚ) (pnls : List ℚ) :
    ℕ → ℕ → List SimulationResult × ℕ
  | 0, s => ([], s)
  | n + 1, s =>
    let d := bootstrapDraws pnls pnls.length s
    let p := bootstrapPaths fsqrt pnls n d.2
    (simFromPnls fsqrt d.1 :: p.1, p.2)

/-- `MonteCarloEngine::runBootstrap` (`monte_carlo.cpp` lines 167-222). -/
def runBootstrap (fsqrt : ℚ → ℚ) (e : MonteCarloEngine) (n : ℕ) :
    List SimulationResult × ℕ :=
  if e.original_trades = [] then ([], e.rng)
  else
    let trade_pnls := e.original_trades.map fun t => t.pnl_pct / 100
    bootstrapPaths fsqrt trade_pnls n e.rng

/-- The five percentile members set by `computePercentiles`. -/
structure Percentiles where
  p5 : ℚ
  p25 : ℚ
  p50 : ℚ
  p75 : ℚ
  p95 : ℚ
  deriving DecidableEq, Repr

/-- `MonteCarloEngine::computePercentiles` (`monte_carlo.cpp` lines 271-291):
sort ascending, then select index `p * (count - 1) / 100` (the `double`
product and quotient are exact at these magnitudes, and the `size_t` cast
truncates, so the index is the floor); all five are 0 for an empty list. -/
def computePercentiles (values : List ℚ) : Percentiles :=
  if values = [] then ⟨0, 0, 0, 0, 0⟩
  else
    let sorted := values.mergeSort
    let get_percentile := fun (p : ℕ) =>
      sorted.getD (p * (values.length - 1) / 100) 0
    ⟨get_percentile 5, get_percentile 25, get_percentile 50,
      get_percentile 75, get_percentile 95⟩

/-- `MonteCarloEngine::computePValue` (`monte_carlo.cpp` lines 293-304). -/
def computePValue (observed_value : ℚ) (simulated_values : List ℚ) : ℚ :=
  if simulated_values = [] then 1
  else
    let count_better :=
      simulated_values.foldl
        (fun c v => if v ≥ observed_value then c + 1 else c) (0 : ℕ)
    (count_better : ℚ) / simulated_values.length

/-- One iteration of the histogram loop (`monte_carlo.cpp` lines 59-64):
compute the bin index and increment it when `0 ≤ bin < 20`.  The C++
`static_cast<int>` truncates toward zero; on the quotients that occur
(`ret ≥ dmin`, `bin_width > 0`, hence non-negative) truncation coincides
with the floor used here. -/
def histAdd (dmin bin_width : ℚ) (acc : List ℕ) (ret : ℚ) : List ℕ :=
  let bin : ℤ := Int.floor ((ret - dmin) / bin_width)
  if 0 ≤ bin ∧ bin < 20 then acc.set bin.toNat (acc.getD bin.toNat 0 + 1)
  else acc

/-- The histogram block of `runAnalysis` (`monte_carlo.cpp` lines 51-66):
20 zeroed buckets; when the pooled list is non-empty, record its min and max
and, when the bin width is positive, count each value into its bucket.
Returns `(distribution_min, distribution_max, return_distribution)`;
`none` models the min/max members never being assigned. -/
def buildHistogram (returns : List ℚ) : Option ℚ × Option ℚ × List ℕ :=
  let hist0 : List ℕ := List.replicate 20 0
  match returns with
  | [] => (none, none, hist0)
  | r :: rs =>
    let dmin := rs.foldl min r
    let dmax := rs.foldl max r
    let bin_width := (dmax - dmin) / 20
    if bin_width > 0 then
      (some dmin, some dmax, (r :: rs).foldl (histAdd dmin bin_width) hist0)
    else (some dmin, some dmax, hist0)

/-- `MonteCarloEngine::runAnalysis` (`monte_carlo.cpp` lines 22-69): run the
three generators sequentially on the shared rng stream with
`num_simulations / 3` paths each, pool the results, compute percentiles,
copy them into the 95 % confidence bounds, and build the histogram.  The
members the function never assigns (the two p-values and the three
`original_*` members) stay `none`. -/
def runAnalysis (fsqrt : ℚ → ℚ) (e : MonteCarloEngine)
    (config : SimulationConfig) : MonteCarloAnalysis :=
  let n := config.num_simulations / 3
  let shuffle_results := runPositionShuffle fsqrt e n
  let perm_results := runReturnPermutation fsqrt { e with rng := shuffle_results.2 } n
  let bootstrap_results := runBootstrap fsqrt { e with rng := perm_results.2 } n
  let simulations := shuffle_results.1 ++ perm_results.1 ++ bootstrap_results.1
  let returns := simulations.map fun sim => sim.total_return_pct
  let ps := computePercentiles returns
  let hd := buildHistogram returns
  { simulations := simulations
    p_value_strategy_vs_random := none
    p_value_strategy_vs_bootstrap := none
    percentile_5 := ps.p5
    percentile_25 := ps.p25
    percentile_50 := ps.p50
    percentile_75 := ps.p75
    percentile_95 := ps.p95
    ci_lower_95 := ps.p5
    ci_upper_95 := ps.p95
    original_return := none
    original_sharpe := none
    original_max_dd := none
    return_distribution := hd.2.2
    distribution_min := hd.1
    distribution_max := hd.2.1
    seed_used := config.seed
    num_trials := config.num_simulations }

end MC

open MC

/-- A concrete choice for the floating-point square root parameter (constantly
zero); the claims hold for every choice, a concrete one is used to instantiate
witnesses. -/
def fsqrt0 : ℚ → ℚ := fun _ => 0

/-- Identity as another concrete `fsqrt` choice, used where a non-zero
standard deviation is wanted. -/
def fsqrtId : ℚ → ℚ := fun q => q

/-- A concrete winning trade: +10 % P&L. -/
def tradeA : Trade :=
  { entry_price := 1, exit_price := 11 / 10, days_held := 1, pnl_pct := 10,
    is_win := true }

/-- A concrete engine holding one trade and a one-day return series, seeded
with 7. -/
def engSmall : MonteCarloEngine :=
  ((MonteCarloEngine.init 7 0).setTrades [tradeA]).setReturns [1 / 2]

/-- A concrete engine holding no input at all, seeded with 7. -/
def engEmpty : MonteCarloEngine := MonteCarloEngine.init 7 0

/-- A concrete configuration requesting 3 simulations with seed 7. -/
def cfgSmall : SimulationConfig :=
  { num_simulations := 3, seed := 7, initial_capital := 100000,
    risk_per_trade := 2 / 100, atr_multiplier := 3, tax_rate := 2 / 1000,
    use_position_shuffle := true, use_return_permutation := true,
    use_bootstrap := true }

/-- A second concrete configuration agreeing with `cfgSmall` only on
`num_simulations`; every other field differs. -/
def cfgSmall2 : SimulationConfig :=
  { num_simulations := 3, seed := 99, initial_capital := 5000,
    risk_per_trade := 1 / 2, atr_multiplier := 1, tax_rate := 0,
    use_position_shuffle := false, use_return_permutation := false,
    use_bootstrap := false }

/-- The pooled `total_return_pct` values of a report — the same list
`runAnalysis` extracts from its pooled simulations for the statistical
aggregation (`monte_carlo.cpp` lines 38-42). -/
def pooledReturns (a : MonteCarloAnalysis) : List ℚ :=
  a.simulations.map fun sim => sim.total_return_pct

/-- The mean of the step-over-step returns of an equity curve, stated the way
the spec formulates it (`List.sum` over the step returns divided by their
count); compared below against the accumulation loop of
`calculateSharpeRatio`. -/
def sharpeMean (curve : List ℚ) : ℚ :=
  (stepReturns curve).sum / (stepReturns curve).length

/-- The population variance of the step returns (mean squared deviation from
`sharpeMean`), as the spec formulates the squared standard deviation. -/
def sharpeVariance (curve : List ℚ) : ℚ :=
  ((stepReturns curve).map fun r =>
    (r - sharpeMean curve) * (r - sharpeMean curve)).sum /
    (stepReturns curve).length

/-! ## Structural lemmas about the generators -/

/-- The shuffle returns a permutation of its input, for every fuel value and
every rng state. -/
theorem shuffleGo_perm : ∀ (fuel : ℕ) (l : List ℚ) (s : ℕ),
    (shuffleGo fuel l s).1.Perm l := by
  intro fuel
  induction fuel with
  | zero => intro l s; simp [shuffleGo]
  | succ fuel ih =>
    intro l s
    match l with
    | [] => simp [shuffleGo]
    | a :: as =>
      simp only [shuffleGo]
      set x := (a :: as).getD ((rngNext s).1 % (as.length + 1)) a with hx
      have hmem : x ∈ a :: as := by
        rcases lt_or_le ((rngNext s).1 % (as.length + 1)) (a :: as).length with h | h
        · rw [hx, List.getD_eq_getElem _ _ h]
          exact List.getElem_mem h
        · rw [hx, List.getD_eq_default _ _ h]
          exact List.mem_cons_self a as
      exact ((ih _ _).cons x).trans (List.perm_cons_erase hmem).symm

/-- `shuffle` permutes its input for every rng state. -/
theorem shuffle_perm (l : List ℚ) (s : ℕ) : (shuffle l s).1.Perm l :=
  shuffleGo_perm l.length l s

/-- `shufflePaths` produces exactly one result per requested path. -/
theorem shufflePaths_length (fsqrt : ℚ → ℚ) (pnls : List ℚ) :
    ∀ (n s : ℕ), (shufflePaths fsqrt pnls n s).1.length = n := by
  intro n
  induction n with
  | zero => intro s; simp [shufflePaths]
  | succ n ih => intro s; simp [shufflePaths, ih]

/-- Every result of `shufflePaths` is the evaluation of some permutation of
the input P&L sequence. -/
theorem shufflePaths_mem (fsqrt : ℚ → ℚ) (pnls : List ℚ) :
    ∀ (n s : ℕ), ∀ sim ∈ (shufflePaths fsqrt pnls n s).1,
      ∃ seq : List ℚ, seq.Perm pnls ∧ sim = simFromPnls fsqrt seq := by
  intro n
  induction n with
  | zero => intro s sim h; simp [shufflePaths] at h
  | succ n ih =>
    intro s sim h
    simp only [shufflePaths, List.mem_cons] at h
    rcases h with h | h
    · exact ⟨(shuffle pnls s).1, shuffle_perm pnls s, h⟩
    · exact ih _ sim h

/-- `permutationPaths` produces exactly one result per requested path. -/
theorem permutationPaths_length (fsqrt : ℚ → ℚ) (returns : List ℚ)
    (num_days : ℕ) : ∀ (n s : ℕ),
    (permutationPaths fsqrt returns num_days n s).1.length = n := by
  intro n
  induction n with
  | zero => intro s; simp [permutationPaths]
  | succ n ih => intro s; simp [permutationPaths, ih]

/-- Every result of `permutationPaths` is the evaluation of some permutation
of the daily-return sequence. -/
theorem permutationPaths_mem (fsqrt : ℚ → ℚ) (returns : List ℚ)
    (num_days : ℕ) : ∀ (n s : ℕ),
    ∀ sim ∈ (permutationPaths fsqrt returns num_days n s).1,
      ∃ seq : List ℚ, seq.Perm returns ∧
        sim = simFromPermuted fsqrt num_days seq := by
  intro n
  induction n with
  | zero => intro s sim h; simp [permutationPaths] at h
  | succ n ih =>
    intro s sim h
    simp only [permutationPaths, List.mem_cons] at h
    rcases h with h | h
    · exact ⟨(shuffle returns s).1, shuffle_perm returns s, h⟩
    · exact ih _ sim h

/-- The bootstrap sampling loop draws exactly `k` elements. -/
theorem bootstrapDraws_length (pnls : List ℚ) :
    ∀ (k s : ℕ), (bootstrapDraws pnls k s).1.length = k := by
  intro k
  induction k with
  | zero => intro s; simp [bootstrapDraws]
  | succ k ih => intro s; simp [bootstrapDraws, ih]

/-- `bootstrapPaths` produces exactly one result per requested path. -/
theorem bootstrapPaths_length (fsqrt : ℚ → ℚ) (pnls : List ℚ) :
    ∀ (n s : ℕ), (bootstrapPaths fsqrt pnls n s).1.length = n := by
  intro n
  induction n with
  | zero => intro s; simp [bootstrapPaths]
  | succ n ih => intro s; simp [bootstrapPaths, ih]

/-- Every result of `bootstrapPaths` is the evaluation of some sampled
sequence of the original length. -/
theorem bootstrapPaths_mem (fsqrt : ℚ → ℚ) (pnls : List ℚ) :
    ∀ (n s : ℕ), ∀ sim ∈ (bootstrapPaths fsqrt pnls n s).1,
      ∃ seq : List ℚ, seq.length = pnls.length ∧
        sim = simFromPnls fsqrt seq := by
  intro n
  induction n with
  | zero => intro s sim h; simp [bootstrapPaths] at h
  | succ n ih =>
    intro s sim h
    simp only [bootstrapPaths, List.mem_cons] at h
    rcases h with h | h
    · exact ⟨(bootstrapDraws pnls pnls.length s).1,
        bootstrapDraws_length pnls pnls.length s, h⟩
    · exact ih _ sim h

/-- `runPositionShuffle` returns at most `n` paths (exactly `n` on non-empty
input, none on empty input). -/
theorem runPositionShuffle_length_le (fsqrt : ℚ → ℚ) (e : MonteCarloEngine)
    (n : ℕ) : (runPositionShuffle fsqrt e n).1.length ≤ n := by
  unfold runPositionShuffle
  split
  · simp
  · simp [shufflePaths_length]

/-- `runReturnPermutation` returns at most `n` paths. -/
theorem runReturnPermutation_length_le (fsqrt : ℚ → ℚ) (e : MonteCarloEngine)
    (n : ℕ) : (runReturnPermutation fsqrt e n).1.length ≤ n := by
  unfold runReturnPermutation
  split
  · simp
  · simp [permutationPaths_length]

/-- `runBootstrap` returns at most `n` paths. -/
theorem runBootstrap_length_le (fsqrt : ℚ → ℚ) (e : MonteCarloEngine)
    (n : ℕ) : (runBootstrap fsqrt e n).1.length ≤ n := by
  unfold runBootstrap
  split
  · simp
  · simp [bootstrapPaths_length]

/-- The counting loop of `computePValue` counts exactly the elements at least
as large as the observed value. -/
theorem foldl_count_ge (observed : ℚ) : ∀ (l : List ℚ) (c : ℕ),
    l.foldl (fun c v => if v ≥ observed then c + 1 else c) c =
      c + l.countP fun v => decide (observed ≤ v) := by
  intro l
  induction l with
  | nil => intro c; simp
  | cons a as ih =>
    intro c
    by_cases h : observed ≤ a
    · simp [List.countP_cons, h, ih, ge_iff_le]
      omega
    · simp [List.countP_cons, h, ih, ge_iff_le]

/-! ## Claim C8 -/

/-- C8: for every observed value and list of simulated values,
`computePValue observed simulated` equals
`count(simulated >= observed) / len(simulated)` with an inclusive
inequality (ties count as at least as extreme), and equals 1 when the
simulated list is empty. -/
theorem claim_C8_theorem (observed : ℚ) (simulated : List ℚ) :
    computePValue observed [] = 1 ∧
    (simulated ≠ [] →
      computePValue observed simulated =
        ((simulated.countP fun v => decide (observed ≤ v)) : ℚ) /
          simulated.length) := by
  refine ⟨by simp [computePValue], fun h => ?_⟩
  simp [computePValue, h, foldl_count_ge]

/-- Witness for C8 at `observed = 3`, `simulated = [1, 3, 5]`: the tie at 3
is counted, giving p-value `2/3`. -/
theorem claim_C8_witness :
    ([(1 : ℚ), 3, 5] ≠ []) ∧ computePValue 3 [1, 3, 5] = 2 / 3 := by
  refine ⟨by simp, ?_⟩
  rw [(claim_C8_theorem 3 [1, 3, 5]).2 (by simp)]
  norm_num [List.countP_cons]

/-! ## Claim C3 -/

/-- Counterexample to C3 as stated: at a concrete non-empty input,
`runAnalysis` leaves `original_return`, `original_sharpe`, `original_max_dd`
and both p-value members unassigned (modelled `none`); none of them is
populated from the caller-supplied input. -/
theorem claim_C3_counterexample :
    (runAnalysis fsqrt0 engSmall cfgSmall).original_return = none ∧
    (runAnalysis fsqrt0 engSmall cfgSmall).original_sharpe = none ∧
    (runAnalysis fsqrt0 engSmall cfgSmall).original_max_dd = none ∧
    (runAnalysis fsqrt0 engSmall cfgSmall).p_value_strategy_vs_random = none ∧
    (runAnalysis fsqrt0 engSmall cfgSmall).p_value_strategy_vs_bootstrap
      = none := by
  refine ⟨?_, ?_, ?_, ?_, ?_⟩ <;> simp [runAnalysis]

/-- C3 amended: the `MonteCarloAnalysis` struct declares the three
`original_*` members and the two p-value members, but `runAnalysis` never
assigns any of them — for every engine state and configuration they are left
in their default-initialised (never-written) state. -/
theorem claim_C3_theorem (fsqrt : ℚ → ℚ) (e : MonteCarloEngine)
    (config : SimulationConfig) :
    (runAnalysis fsqrt e config).original_return = none ∧
    (runAnalysis fsqrt e config).original_sharpe = none ∧
    (runAnalysis fsqrt e config).original_max_dd = none ∧
    (runAnalysis fsqrt e config).p_value_strategy_vs_random = none ∧
    (runAnalysis fsqrt e config).p_value_strategy_vs_bootstrap = none := by
  refine ⟨?_, ?_, ?_, ?_, ?_⟩ <;> simp [runAnalysis]

/-! ## Claim C4 -/

/-- C4: with a fixed non-zero (explicit) seed, two separately constructed
engines loaded with the same trades, returns and prices produce identical
`MonteCarloAnalysis` reports from `runAnalysis` under the same
configuration, whatever entropy the environment would have supplied to
each. -/
theorem claim_C4_theorem (fsqrt : ℚ → ℚ) (seed ent1 ent2 : ℕ)
    (trades : List Trade) (returns prices : List ℚ)
    (config : SimulationConfig) (hseed : seed ≠ 0) :
    runAnalysis fsqrt
      ((((MonteCarloEngine.init seed ent1).setTrades trades).setReturns
        returns).setPrices prices) config =
    runAnalysis fsqrt
      ((((MonteCarloEngine.init seed ent2).setTrades trades).setReturns
        returns).setPrices prices) config := by
  have h : MonteCarloEngine.init seed ent1 = MonteCarloEngine.init seed ent2 := by
    simp [MonteCarloEngine.init, hseed]
  rw [h]

/-- Witness for C4 at seed 7 with two different entropy values. -/
theorem claim_C4_witness :
    (7 : ℕ) ≠ 0 ∧
    runAnalysis fsqrt0
      ((((MonteCarloEngine.init 7 0).setTrades [tradeA]).setReturns
        [1 / 2]).setPrices []) cfgSmall =
    runAnalysis fsqrt0
      ((((MonteCarloEngine.init 7 123).setTrades [tradeA]).setReturns
        [1 / 2]).setPrices []) cfgSmall :=
  ⟨by decide,
    claim_C4_theorem fsqrt0 7 0 123 [tradeA] [1 / 2] [] cfgSmall (by decide)⟩

/-! ## Claim C6 -/

/-- C6: on a non-empty stored trade list, `runPositionShuffle` produces
exactly the `n` requested paths; each is the evaluation of an
outcome-sequence that is a permutation of the original fractional P&L
sequence, its `num_trades` equals the original trade count, and its
`win_rate` is the percentage of positive entries of the shuffled sequence
itself. -/
theorem claim_C6_theorem (fsqrt : ℚ → ℚ) (e : MonteCarloEngine) (n : ℕ)
    (h : e.original_trades ≠ []) :
    (runPositionShuffle fsqrt e n).1.length = n ∧
    ∀ sim ∈ (runPositionShuffle fsqrt e n).1,
      ∃ seq : List ℚ,
        seq.Perm (e.original_trades.map fun t => t.pnl_pct / 100) ∧
        sim = simFromPnls fsqrt seq ∧
        sim.num_trades = e.original_trades.length ∧
        sim.win_rate =
          ((seq.countP fun p => decide (0 < p)) : ℚ) / seq.length * 100 := by
  have hpnls : (e.original_trades.map fun t => t.pnl_pct / 100) ≠ [] := by
    simpa using h
  simp only [runPositionShuffle, if_neg h]
  refine ⟨shufflePaths_length _ _ _ _, ?_⟩
  intro sim hmem
  obtain ⟨seq, hperm, hsim⟩ := shufflePaths_mem fsqrt _ n e.rng sim hmem
  have hseqne : seq ≠ [] := by
    intro hnil
    exact hpnls (List.nil_perm.mp (hnil ▸ hperm))
  refine ⟨seq, hperm, hsim, ?_, ?_⟩
  · rw [hsim]
    simp [simFromPnls, hperm.length_eq]
  · rw [hsim]
    simp [simFromPnls, hseqne]

/-- Witness for C6 at the one-trade engine `engSmall` with one requested
path. -/
theorem claim_C6_witness :
    engSmall.original_trades ≠ [] ∧
    ((runPositionShuffle fsqrt0 engSmall 1).1.length = 1 ∧
      ∀ sim ∈ (runPositionShuffle fsqrt0 engSmall 1).1,
        ∃ seq : List ℚ,
          seq.Perm (engSmall.original_trades.map fun t => t.pnl_pct / 100) ∧
          sim = simFromPnls fsqrt0 seq ∧
          sim.num_trades = engSmall.original_trades.length ∧
          sim.win_rate =
            ((seq.countP fun p => decide (0 < p)) : ℚ) / seq.length * 100) :=
  have h : engSmall.original_trades ≠ [] := by
    simp [engSmall, MonteCarloEngine.init, MonteCarloEngine.setTrades,
      MonteCarloEngine.setReturns]
  ⟨h, claim_C6_theorem fsqrt0 engSmall 1 h⟩

/-! ## Claim C1 -/

/-- Counterexample to C1 as stated: on a one-day stored return series, the
single path produced by `runReturnPermutation` reports `num_trades = 0`,
while every outcome-sequence that can produce a path (a permutation of the
stored series) has length 1. -/
theorem claim_C1_counterexample :
    ∃ sim ∈ (runReturnPermutation fsqrt0 engSmall 1).1,
      ∀ seq : List ℚ, seq.Perm engSmall.daily_returns →
        sim.num_trades ≠ seq.length := by
  have hev : (runReturnPermutation fsqrt0 engSmall 1).1 =
      [simFromPermuted fsqrt0 1 [1 / 2]] := by
    norm_num [runReturnPermutation, engSmall, MonteCarloEngine.init,
      MonteCarloEngine.setTrades, MonteCarloEngine.setReturns,
      permutationPaths, shuffle, shuffleGo, rngNext]
  refine ⟨simFromPermuted fsqrt0 1 [1 / 2], by simp [hev], ?_⟩
  intro seq hperm
  have hlen : seq.length = 1 := by
    have hl := hperm.length_eq
    simpa [engSmall, MonteCarloEngine.init, MonteCarloEngine.setTrades,
      MonteCarloEngine.setReturns] using hl
  simp [simFromPermuted, hlen]

/-- C1 amended: every path of `runPositionShuffle` and `runBootstrap` has
`num_trades` equal to the length of the outcome-sequence that produced it;
every path of `runReturnPermutation` instead carries the fixed
`num_days / 20` heuristic, while its outcome-sequence has length
`num_days`. -/
theorem claim_C1_theorem (fsqrt : ℚ → ℚ) (e : MonteCarloEngine) (n : ℕ) :
    (∀ sim ∈ (runPositionShuffle fsqrt e n).1,
      ∃ seq : List ℚ,
        seq.Perm (e.original_trades.map fun t => t.pnl_pct / 100) ∧
        sim = simFromPnls fsqrt seq ∧ sim.num_trades = seq.length) ∧
    (∀ sim ∈ (runBootstrap fsqrt e n).1,
      ∃ seq : List ℚ, seq.length = e.original_trades.length ∧
        sim = simFromPnls fsqrt seq ∧ sim.num_trades = seq.length) ∧
    (∀ sim ∈ (runReturnPermutation fsqrt e n).1,
      ∃ seq : List ℚ, seq.Perm e.daily_returns ∧
        sim = simFromPermuted fsqrt e.daily_returns.length seq ∧
        sim.num_trades = e.daily_returns.length / 20 ∧
        seq.length = e.daily_returns.length) := by
  refine ⟨?_, ?_, ?_⟩
  · intro sim hmem
    by_cases h : e.original_trades = []
    · simp [runPositionShuffle, h] at hmem
    · simp only [runPositionShuffle, if_neg h] at hmem
      obtain ⟨seq, hperm, hsim⟩ := shufflePaths_mem fsqrt _ n e.rng sim hmem
      exact ⟨seq, hperm, hsim, by rw [hsim]; simp [simFromPnls]⟩
  · intro sim hmem
    by_cases h : e.original_trades = []
    · simp [runBootstrap, h] at hmem
    · simp only [runBootstrap, if_neg h] at hmem
      obtain ⟨seq, hlen, hsim⟩ := bootstrapPaths_mem fsqrt _ n e.rng sim hmem
      refine ⟨seq, ?_, hsim, by rw [hsim]; simp [simFromPnls]⟩
      simpa using hlen
  · intro sim hmem
    by_cases h : e.daily_returns = []
    · simp [runReturnPermutation, h] at hmem
    · simp only [runReturnPermutation, if_neg h] at hmem
      obtain ⟨seq, hperm, hsim⟩ :=
        permutationPaths_mem fsqrt _ _ n e.rng sim hmem
      exact ⟨seq, hperm, hsim, by rw [hsim]; simp [simFromPermuted],
        hperm.length_eq⟩

/-- Witness for C1 (amended) at the one-trade, one-day engine with one
requested path per generator. -/
theorem claim_C1_witness :
    (∀ sim ∈ (runPositionShuffle fsqrt0 engSmall 1).1,
      ∃ seq : List ℚ,
        seq.Perm (engSmall.original_trades.map fun t => t.pnl_pct / 100) ∧
        sim = simFromPnls fsqrt0 seq ∧ sim.num_trades = seq.length) ∧
    (∀ sim ∈ (runBootstrap fsqrt0 engSmall 1).1,
      ∃ seq : List ℚ, seq.length = engSmall.original_trades.length ∧
        sim = simFromPnls fsqrt0 seq ∧ sim.num_trades = seq.length) ∧
    (∀ sim ∈ (runReturnPermutation fsqrt0 engSmall 1).1,
      ∃ seq : List ℚ, seq.Perm engSmall.daily_returns ∧
        sim = simFromPermuted fsqrt0 engSmall.daily_returns.length seq ∧
        sim.num_trades = engSmall.daily_returns.length / 20 ∧
        seq.length = engSmall.daily_returns.length) :=
  claim_C1_theorem fsqrt0 engSmall 1

/-! ## Claim C5 -/

/-- The pooled simulation collection holds at most `3 * (num_simulations / 3)`
paths (each generator contributes its requested `num_simulations / 3` paths
or none). -/
theorem runAnalysis_simulations_length (fsqrt : ℚ → ℚ)
    (e : MonteCarloEngine) (cfg : SimulationConfig) :
    (runAnalysis fsqrt e cfg).simulations.length ≤
      3 * (cfg.num_simulations / 3) := by
  have h3 : 3 * (cfg.num_simulations / 3) =
      cfg.num_simulations / 3 + cfg.num_simulations / 3 +
        cfg.num_simulations / 3 := by omega
  simp only [runAnalysis, List.length_append]
  rw [h3]
  exact add_le_add (add_le_add (runPositionShuffle_length_le _ _ _)
    (runReturnPermutation_length_le _ _ _)) (runBootstrap_length_le _ _ _)

/-- C5: two configurations agreeing on `num_simulations` but arbitrary in
seed, capital, risk, ATR multiplier, tax rate and the three generator
toggles yield identical simulations, percentiles, confidence interval and
histogram from `runAnalysis` on the same engine state; only the metadata
(`seed_used = config.seed`, `num_trials = config.num_simulations`, the
requested count, although at most `3 * (num_simulations / 3)` paths are
generated) depends on the remaining configuration fields. -/
theorem claim_C5_theorem (fsqrt : ℚ → ℚ) (e : MonteCarloEngine)
    (c1 c2 : SimulationConfig)
    (h : c1.num_simulations = c2.num_simulations) :
    (runAnalysis fsqrt e c1).simulations =
      (runAnalysis fsqrt e c2).simulations ∧
    (runAnalysis fsqrt e c1).percentile_5 =
      (runAnalysis fsqrt e c2).percentile_5 ∧
    (runAnalysis fsqrt e c1).percentile_25 =
      (runAnalysis fsqrt e c2).percentile_25 ∧
    (runAnalysis fsqrt e c1).percentile_50 =
      (runAnalysis fsqrt e c2).percentile_50 ∧
    (runAnalysis fsqrt e c1).percentile_75 =
      (runAnalysis fsqrt e c2).percentile_75 ∧
    (runAnalysis fsqrt e c1).percentile_95 =
      (runAnalysis fsqrt e c2).percentile_95 ∧
    (runAnalysis fsqrt e c1).ci_lower_95 =
      (runAnalysis fsqrt e c2).ci_lower_95 ∧
    (runAnalysis fsqrt e c1).ci_upper_95 =
      (runAnalysis fsqrt e c2).ci_upper_95 ∧
    (runAnalysis fsqrt e c1).return_distribution =
      (runAnalysis fsqrt e c2).return_distribution ∧
    (runAnalysis fsqrt e c1).distribution_min =
      (runAnalysis fsqrt e c2).distribution_min ∧
    (runAnalysis fsqrt e c1).distribution_max =
      (runAnalysis fsqrt e c2).distribution_max ∧
    (runAnalysis fsqrt e c1).p_value_strategy_vs_random =
      (runAnalysis fsqrt e c2).p_value_strategy_vs_random ∧
    (runAnalysis fsqrt e c1).p_value_strategy_vs_bootstrap =
      (runAnalysis fsqrt e c2).p_value_strategy_vs_bootstrap ∧
    (runAnalysis fsqrt e c1).original_return =
      (runAnalysis fsqrt e c2).original_return ∧
    (runAnalysis fsqrt e c1).original_sharpe =
      (runAnalysis fsqrt e c2).original_sharpe ∧
    (runAnalysis fsqrt e c1).original_max_dd =
      (runAnalysis fsqrt e c2).original_max_dd ∧
    (runAnalysis fsqrt e c1).seed_used = c1.seed ∧
    (runAnalysis fsqrt e c1).num_trials = c1.num_simulations ∧
    (runAnalysis fsqrt e c1).simulations.length ≤
      3 * (c1.num_simulations / 3) := by
  refine ⟨?_, ?_, ?_, ?_, ?_, ?_, ?_, ?_, ?_, ?_, ?_, ?_, ?_, ?_, ?_, ?_,
    ?_, ?_, runAnalysis_simulations_length fsqrt e c1⟩ <;>
    simp only [runAnalysis, h]

/-- Witness for C5 at `cfgSmall` / `cfgSmall2`, which agree only on
`num_simulations`. -/
theorem claim_C5_witness :
    cfgSmall.num_simulations = cfgSmall2.num_simulations ∧
    (runAnalysis fsqrt0 engSmall cfgSmall).simulations =
      (runAnalysis fsqrt0 engSmall cfgSmall2).simulations ∧
    (runAnalysis fsqrt0 engSmall cfgSmall).return_distribution =
      (runAnalysis fsqrt0 engSmall cfgSmall2).return_distribution ∧
    (runAnalysis fsqrt0 engSmall cfgSmall).seed_used = cfgSmall.seed ∧
    (runAnalysis fsqrt0 engSmall cfgSmall).num_trials =
      cfgSmall.num_simulations := by
  have h : cfgSmall.num_simulations = cfgSmall2.num_simulations := by
    simp [cfgSmall, cfgSmall2]
  have hall := claim_C5_theorem fsqrt0 engSmall cfgSmall cfgSmall2 h
  exact ⟨h, hall.1, hall.2.2.2.2.2.2.2.2.1, hall.2.2.2.2.2.2.2.2.2.2.2.2.2.2.2.2.1,
    hall.2.2.2.2.2.2.2.2.2.2.2.2.2.2.2.2.2.1⟩

/-! ## Claim C7 -/

/-- The percentile members of a report are exactly `computePercentiles` of
the pooled returns, and the confidence bounds are copies of the 5th / 95th
percentiles. -/
theorem runAnalysis_percentiles (fsqrt : ℚ → ℚ) (e : MonteCarloEngine)
    (cfg : SimulationConfig) :
    (runAnalysis fsqrt e cfg).percentile_5 =
      (computePercentiles (pooledReturns (runAnalysis fsqrt e cfg))).p5 ∧
    (runAnalysis fsqrt e cfg).percentile_25 =
      (computePercentiles (pooledReturns (runAnalysis fsqrt e cfg))).p25 ∧
    (runAnalysis fsqrt e cfg).percentile_50 =
      (computePercentiles (pooledReturns (runAnalysis fsqrt e cfg))).p50 ∧
    (runAnalysis fsqrt e cfg).percentile_75 =
      (computePercentiles (pooledReturns (runAnalysis fsqrt e cfg))).p75 ∧
    (runAnalysis fsqrt e cfg).percentile_95 =
      (computePercentiles (pooledReturns (runAnalysis fsqrt e cfg))).p95 ∧
    (runAnalysis fsqrt e cfg).ci_lower_95 =
      (runAnalysis fsqrt e cfg).percentile_5 ∧
    (runAnalysis fsqrt e cfg).ci_upper_95 =
      (runAnalysis fsqrt e cfg).percentile_95 := by
  refine ⟨?_, ?_, ?_, ?_, ?_, ?_, ?_⟩ <;> simp only [runAnalysis, pooledReturns]

/-- C7: `runAnalysis` computes each requested percentile by sorting the
pooled `total_return_pct` values ascending and selecting the element at
index `p * (count - 1) / 100` (floored nearest-rank, no interpolation); all
five percentiles are 0 for an empty pool; and the 95 % confidence bounds
always equal the 5th and 95th percentiles. -/
theorem claim_C7_theorem (fsqrt : ℚ → ℚ) (e : MonteCarloEngine)
    (cfg : SimulationConfig) :
    (pooledReturns (runAnalysis fsqrt e cfg) = [] →
      (runAnalysis fsqrt e cfg).percentile_5 = 0 ∧
      (runAnalysis fsqrt e cfg).percentile_25 = 0 ∧
      (runAnalysis fsqrt e cfg).percentile_50 = 0 ∧
      (runAnalysis fsqrt e cfg).percentile_75 = 0 ∧
      (runAnalysis fsqrt e cfg).percentile_95 = 0) ∧
    (pooledReturns (runAnalysis fsqrt e cfg) ≠ [] →
      ∃ sorted : List ℚ,
        sorted.Perm (pooledReturns (runAnalysis fsqrt e cfg)) ∧
        sorted.Sorted (· ≤ ·) ∧
        (runAnalysis fsqrt e cfg).percentile_5 =
          sorted.getD
            (5 * ((pooledReturns (runAnalysis fsqrt e cfg)).length - 1) / 100) 0 ∧
        (runAnalysis fsqrt e cfg).percentile_25 =
          sorted.getD
            (25 * ((pooledReturns (runAnalysis fsqrt e cfg)).length - 1) / 100) 0 ∧
        (runAnalysis fsqrt e cfg).percentile_50 =
          sorted.getD
            (50 * ((pooledReturns (runAnalysis fsqrt e cfg)).length - 1) / 100) 0 ∧
        (runAnalysis fsqrt e cfg).percentile_75 =
          sorted.getD
            (75 * ((pooledReturns (runAnalysis fsqrt e cfg)).length - 1) / 100) 0 ∧
        (runAnalysis fsqrt e cfg).percentile_95 =
          sorted.getD
            (95 * ((pooledReturns (runAnalysis fsqrt e cfg)).length - 1) / 100) 0) ∧
    (runAnalysis fsqrt e cfg).ci_lower_95 =
      (runAnalysis fsqrt e cfg).percentile_5 ∧
    (runAnalysis fsqrt e cfg).ci_upper_95 =
      (runAnalysis fsqrt e cfg).percentile_95 := by
  obtain ⟨h5, h25, h50, h75, h95, hcl, hcu⟩ :=
    runAnalysis_percentiles fsqrt e cfg
  refine ⟨?_, ?_, hcl, hcu⟩
  · intro hnil
    rw [h5, h25, h50, h75, h95, hnil]
    simp [computePercentiles]
  · intro hne
    refine ⟨(pooledReturns (runAnalysis fsqrt e cfg)).mergeSort,
      List.mergeSort_perm _ _, List.sorted_mergeSort' _, ?_, ?_, ?_, ?_, ?_⟩
    · rw [h5]; simp [computePercentiles, hne]
    · rw [h25]; simp [computePercentiles, hne]
    · rw [h50]; simp [computePercentiles, hne]
    · rw [h75]; simp [computePercentiles, hne]
    · rw [h95]; simp [computePercentiles, hne]

/-- Witness for C7 at a concrete engine with a non-empty pool. -/
theorem claim_C7_witness :
    ((pooledReturns (runAnalysis fsqrt0 engSmall cfgSmall) = [] →
      (runAnalysis fsqrt0 engSmall cfgSmall).percentile_5 = 0 ∧
      (runAnalysis fsqrt0 engSmall cfgSmall).percentile_25 = 0 ∧
      (runAnalysis fsqrt0 engSmall cfgSmall).percentile_50 = 0 ∧
      (runAnalysis fsqrt0 engSmall cfgSmall).percentile_75 = 0 ∧
      (runAnalysis fsqrt0 engSmall cfgSmall).percentile_95 = 0) ∧
    (pooledReturns (runAnalysis fsqrt0 engSmall cfgSmall) ≠ [] →
      ∃ sorted : List ℚ,
        sorted.Perm (pooledReturns (runAnalysis fsqrt0 engSmall cfgSmall)) ∧
        sorted.Sorted (· ≤ ·) ∧
        (runAnalysis fsqrt0 engSmall cfgSmall).percentile_5 =
          sorted.getD
            (5 * ((pooledReturns (runAnalysis fsqrt0 engSmall cfgSmall)).length - 1) / 100) 0 ∧
        (runAnalysis fsqrt0 engSmall cfgSmall).percentile_25 =
          sorted.getD
            (25 * ((pooledReturns (runAnalysis fsqrt0 engSmall cfgSmall)).length - 1) / 100) 0 ∧
        (runAnalysis fsqrt0 engSmall cfgSmall).percentile_50 =
          sorted.getD
            (50 * ((pooledReturns (runAnalysis fsqrt0 engSmall cfgSmall)).length - 1) / 100) 0 ∧
        (runAnalysis fsqrt0 engSmall cfgSmall).percentile_75 =
          sorted.getD
            (75 * ((pooledReturns (runAnalysis fsqrt0 engSmall cfgSmall)).length - 1) / 100) 0 ∧
        (runAnalysis fsqrt0 engSmall cfgSmall).percentile_95 =
          sorted.getD
            (95 * ((pooledReturns (runAnalysis fsqrt0 engSmall cfgSmall)).length - 1) / 100) 0) ∧
    (runAnalysis fsqrt0 engSmall cfgSmall).ci_lower_95 =
      (runAnalysis fsqrt0 engSmall cfgSmall).percentile_5 ∧
    (runAnalysis fsqrt0 engSmall cfgSmall).ci_upper_95 =
      (runAnalysis fsqrt0 engSmall cfgSmall).percentile_95) ∧
    pooledReturns (runAnalysis fsqrt0 engSmall cfgSmall) ≠ [] := by
  refine ⟨claim_C7_theorem fsqrt0 engSmall cfgSmall, ?_⟩
  have hlen := runAnalysis_percentiles fsqrt0 engSmall cfgSmall
  intro hnil
  have h3 : (pooledReturns (runAnalysis fsqrt0 engSmall cfgSmall)).length = 3 := by
    norm_num [pooledReturns, runAnalysis, runPositionShuffle,
      runReturnPermutation, runBootstrap, engSmall, cfgSmall,
      MonteCarloEngine.init, MonteCarloEngine.setTrades,
      MonteCarloEngine.setReturns, shufflePaths, permutationPaths,
      bootstrapPaths, shufflePaths_length, permutationPaths_length,
      bootstrapPaths_length]
  rw [hnil] at h3
  simp at h3


/-! ## Claim C9 -/

/-- An equity curve with at least two points yields at least one step
return. -/
theorem stepReturns_length : ∀ curve : List ℚ,
    (stepReturns curve).length = curve.length - 1
  | [] => by simp [stepReturns]
  | [_] => by simp [stepReturns]
  | a :: b :: rest => by
    simp [stepReturns, stepReturns_length (b :: rest)]

/-- The summation loop of `calculateSharpeRatio` computes the list sum. -/
theorem foldl_add_eq_sum : ∀ (l : List ℚ) (a : ℚ), l.foldl (· + ·) a = a + l.sum := by
  intro l
  induction l with
  | nil => intro a; simp
  | cons x xs ih =>
    intro a
    simp only [List.foldl_cons, List.sum_cons, ih]
    ring

/-- The squared-deviation loop of `calculateSharpeRatio` computes the sum of
squared deviations. -/
theorem foldl_add_sq_eq_sum (m : ℚ) : ∀ (l : List ℚ) (a : ℚ),
    l.foldl (fun acc r => acc + (r - m) * (r - m)) a =
      a + (l.map fun r => (r - m) * (r - m)).sum := by
  intro l
  induction l with
  | nil => intro a; simp
  | cons x xs ih =>
    intro a
    simp only [List.foldl_cons, List.map_cons, List.sum_cons, ih]
    ring

/-- C9: `calculateSharpeRatio` returns `mean / stddev * sqrt 252` where the
mean and (the square root of) the population variance are taken over the
step-over-step returns `(v[i] - v[i-1]) / v[i-1]`; it returns exactly 0
whenever the curve has fewer than 2 points or the standard deviation is
exactly 0, so the division by the standard deviation is never executed with
a zero divisor. -/
theorem claim_C9_theorem (fsqrt : ℚ → ℚ) (curve : List ℚ) :
    (curve.length < 2 → calculateSharpeRatio fsqrt curve = 0) ∧
    (2 ≤ curve.length →
      (fsqrt (sharpeVariance curve) = 0 →
        calculateSharpeRatio fsqrt curve = 0) ∧
      (fsqrt (sharpeVariance curve) ≠ 0 →
        calculateSharpeRatio fsqrt curve =
          sharpeMean curve / fsqrt (sharpeVariance curve) * fsqrt 252)) := by
  constructor
  · intro h
    simp [calculateSharpeRatio, h]
  · intro h
    have hnl : ¬ curve.length < 2 := by omega
    have hne : stepReturns curve ≠ [] := by
      intro hnil
      have hl := stepReturns_length curve
      rw [hnil] at hl
      simp at hl
      omega
    have key : calculateSharpeRatio fsqrt curve =
        if fsqrt (sharpeVariance curve) = 0 then 0
        else sharpeMean curve / fsqrt (sharpeVariance curve) * fsqrt 252 := by
      simp only [calculateSharpeRatio, if_neg hnl, if_neg hne,
        foldl_add_eq_sum, foldl_add_sq_eq_sum, zero_add, sharpeMean,
        sharpeVariance]
    exact ⟨fun hz => by rw [key, if_pos hz], fun hz => by rw [key, if_neg hz]⟩

/-- Witness for C9 on the curve `[1, 2, 6]` with the identity as the
`fsqrt` choice: step returns `[1, 2]`, mean `3/2`, variance `1/4`, Sharpe
`(3/2) / (1/4) * 252`. -/
theorem claim_C9_witness :
    2 ≤ ([1, 2, 6] : List ℚ).length ∧
    fsqrtId (sharpeVariance [1, 2, 6]) ≠ 0 ∧
    calculateSharpeRatio fsqrtId [1, 2, 6] =
      sharpeMean [1, 2, 6] / fsqrtId (sharpeVariance [1, 2, 6]) *
        fsqrtId 252 := by
  have h2 : 2 ≤ ([1, 2, 6] : List ℚ).length := by simp
  have hvar : fsqrtId (sharpeVariance ([1, 2, 6] : List ℚ)) ≠ 0 := by
    norm_num [fsqrtId, sharpeVariance, sharpeMean, stepReturns]
  exact ⟨h2, hvar, ((claim_C9_theorem fsqrtId [1, 2, 6]).2 h2).2 hvar⟩

/-! ## Claim C10 -/

/-- Counterexample to C10 as stated: with all inputs empty, the report is not
"all-zero" — `distribution_min`, the `original_*` members and the p-values
are never assigned at all (they keep their default-initialised indeterminate
state, modelled `none`), rather than being set to zero. -/
theorem claim_C10_counterexample :
    engEmpty.original_trades = [] ∧ engEmpty.daily_returns = [] ∧
    (runAnalysis fsqrt0 engEmpty cfgSmall).distribution_min ≠ some 0 ∧
    (runAnalysis fsqrt0 engEmpty cfgSmall).distribution_max ≠ some 0 ∧
    (runAnalysis fsqrt0 engEmpty cfgSmall).original_return ≠ some 0 ∧
    (runAnalysis fsqrt0 engEmpty cfgSmall).p_value_strategy_vs_random ≠
      some 0 := by
  refine ⟨by simp [engEmpty, MonteCarloEngine.init],
    by simp [engEmpty, MonteCarloEngine.init], ?_, ?_, ?_, ?_⟩ <;>
    simp [runAnalysis, runPositionShuffle, runReturnPermutation, runBootstrap,
      engEmpty, MonteCarloEngine.init, buildHistogram]

/-- C10 amended: empty stored trades make `runPositionShuffle` and
`runBootstrap` return zero paths, an empty stored return series makes
`runReturnPermutation` return zero paths (never an error), and with all
inputs empty `runAnalysis` returns a well-formed degenerate report: no
simulations, zero percentiles and confidence bounds, an all-zero 20-bucket
histogram, while the never-assigned members (`distribution_min`,
`distribution_max`, the `original_*` metrics and both p-values) are left
unwritten rather than zeroed; the metadata still reflects the
configuration. -/
theorem claim_C10_theorem (fsqrt : ℚ → ℚ) (e : MonteCarloEngine) (n : ℕ)
    (cfg : SimulationConfig) :
    (e.original_trades = [] →
      runPositionShuffle fsqrt e n = ([], e.rng) ∧
      runBootstrap fsqrt e n = ([], e.rng)) ∧
    (e.daily_returns = [] →
      runReturnPermutation fsqrt e n = ([], e.rng)) ∧
    (e.original_trades = [] → e.daily_returns = [] →
      (runAnalysis fsqrt e cfg).simulations = [] ∧
      (runAnalysis fsqrt e cfg).percentile_5 = 0 ∧
      (runAnalysis fsqrt e cfg).percentile_25 = 0 ∧
      (runAnalysis fsqrt e cfg).percentile_50 = 0 ∧
      (runAnalysis fsqrt e cfg).percentile_75 = 0 ∧
      (runAnalysis fsqrt e cfg).percentile_95 = 0 ∧
      (runAnalysis fsqrt e cfg).ci_lower_95 = 0 ∧
      (runAnalysis fsqrt e cfg).ci_upper_95 = 0 ∧
      (runAnalysis fsqrt e cfg).return_distribution = List.replicate 20 0 ∧
      (runAnalysis fsqrt e cfg).distribution_min = none ∧
      (runAnalysis fsqrt e cfg).distribution_max = none ∧
      (runAnalysis fsqrt e cfg).original_return = none ∧
      (runAnalysis fsqrt e cfg).original_sharpe = none ∧
      (runAnalysis fsqrt e cfg).original_max_dd = none ∧
      (runAnalysis fsqrt e cfg).p_value_strategy_vs_random = none ∧
      (runAnalysis fsqrt e cfg).p_value_strategy_vs_bootstrap = none ∧
      (runAnalysis fsqrt e cfg).seed_used = cfg.seed ∧
      (runAnalysis fsqrt e cfg).num_trials = cfg.num_simulations) := by
  refine ⟨?_, ?_, ?_⟩
  · intro h
    constructor
    · simp [runPositionShuffle, h]
    · simp [runBootstrap, h]
  · intro h
    simp [runReturnPermutation, h]
  · intro h1 h2
    refine ⟨?_, ?_, ?_, ?_, ?_, ?_, ?_, ?_, ?_, ?_, ?_, ?_, ?_, ?_, ?_, ?_,
      ?_, ?_⟩ <;>
      simp [runAnalysis, runPositionShuffle, runReturnPermutation,
        runBootstrap, h1, h2, computePercentiles, buildHistogram]

/-- Witness for C10 at the all-empty engine `engEmpty`. -/
theorem claim_C10_witness :
    engEmpty.original_trades = [] ∧ engEmpty.daily_returns = [] ∧
    runPositionShuffle fsqrt0 engEmpty 5 = ([], engEmpty.rng) ∧
    runBootstrap fsqrt0 engEmpty 5 = ([], engEmpty.rng) ∧
    runReturnPermutation fsqrt0 engEmpty 5 = ([], engEmpty.rng) ∧
    (runAnalysis fsqrt0 engEmpty cfgSmall).simulations = [] ∧
    (runAnalysis fsqrt0 engEmpty cfgSmall).percentile_5 = 0 ∧
    (runAnalysis fsqrt0 engEmpty cfgSmall).return_distribution =
      List.replicate 20 0 ∧
    (runAnalysis fsqrt0 engEmpty cfgSmall).distribution_min = none := by
  have h1 : engEmpty.original_trades = [] := by
    simp [engEmpty, MonteCarloEngine.init]
  have h2 : engEmpty.daily_returns = [] := by
    simp [engEmpty, MonteCarloEngine.init]
  obtain ⟨ha, hb, hc⟩ := claim_C10_theorem fsqrt0 engEmpty 5 cfgSmall
  obtain ⟨ha1, ha2⟩ := ha h1
  obtain ⟨hc1, hc2, _, _, _, _, _, _, hc9, hc10, _⟩ := hc h1 h2
  exact ⟨h1, h2, ha1, ha2, hb h2, hc1, hc2, hc9, hc10⟩

/-! ## Claim C2 -/

/-- Incrementing one in-range bucket raises the bucket sum by one. -/
theorem sum_set_bump : ∀ (l : List ℕ) (i : ℕ), i < l.length →
    (l.set i (l.getD i 0 + 1)).sum = l.sum + 1 := by
  intro l
  induction l with
  | nil => intro i h; simp at h
  | cons x xs ih =>
    intro i h
    cases i with
    | zero =>
      simp only [List.getD_cons_zero, List.set_cons_zero, List.sum_cons]
      omega
    | succ j =>
      have hj : j < xs.length := by simpa using h
      simp only [List.getD_cons_succ, List.set_cons_succ, List.sum_cons,
        ih j hj]
      omega

/-- `histAdd` preserves the number of buckets. -/
theorem histAdd_length (dmin bin_width : ℚ) (acc : List ℕ) (ret : ℚ) :
    (histAdd dmin bin_width acc ret).length = acc.length := by
  simp only [histAdd]
  split <;> simp

/-- One histogram step adds one to the bucket sum exactly when the bin index
lands in `[0, 20)`. -/
theorem histAdd_sum (dmin bin_width : ℚ) (acc : List ℕ) (ret : ℚ)
    (h : acc.length = 20) :
    (histAdd dmin bin_width acc ret).sum = acc.sum +
      if 0 ≤ Int.floor ((ret - dmin) / bin_width) ∧
          Int.floor ((ret - dmin) / bin_width) < 20 then 1 else 0 := by
  simp only [histAdd]
  split
  · apply sum_set_bump
    rw [h]
    rename_i hc
    omega
  · simp

/-- The histogram loop counts exactly the values whose bin index lands in
`[0, 20)`. -/
theorem foldl_histAdd_sum (dmin bin_width : ℚ) : ∀ (l : List ℚ)
    (acc : List ℕ), acc.length = 20 →
    (l.foldl (histAdd dmin bin_width) acc).sum = acc.sum +
      l.countP fun ret => decide (0 ≤ Int.floor ((ret - dmin) / bin_width) ∧
        Int.floor ((ret - dmin) / bin_width) < 20) := by
  intro l
  induction l with
  | nil => intro acc h; simp
  | cons x xs ih =>
    intro acc h
    have h' : (histAdd dmin bin_width acc x).length = 20 := by
      rw [histAdd_length, h]
    simp only [List.foldl_cons, ih _ h', histAdd_sum dmin bin_width acc x h,
      List.countP_cons]
    by_cases hc : 0 ≤ Int.floor ((x - dmin) / bin_width) ∧
        Int.floor ((x - dmin) / bin_width) < 20
    · simp [hc]
      omega
    · simp [hc]

/-- A left fold of `min` is a lower bound of the seed. -/
theorem foldl_min_le_init : ∀ (l : List ℚ) (a : ℚ), l.foldl min a ≤ a := by
  intro l
  induction l with
  | nil => intro a; simp
  | cons b bs ih =>
    intro a
    simpa using le_trans (ih (min a b)) (min_le_left a b)

/-- A left fold of `max` is an upper bound of the seed. -/
theorem le_foldl_max_init : ∀ (l : List ℚ) (a : ℚ), a ≤ l.foldl max a := by
  intro l
  induction l with
  | nil => intro a; simp
  | cons b bs ih =>
    intro a
    simpa using le_trans (le_max_left a b) (ih (max a b))

/-- The running minimum (as `runAnalysis` computes `distribution_min`) is a
lower bound of every pooled value. -/
theorem foldl_min_le : ∀ (rs : List ℚ) (r x : ℚ), x ∈ r :: rs →
    rs.foldl min r ≤ x := by
  intro rs
  induction rs with
  | nil =>
    intro r x hx
    simp only [List.foldl_nil]
    rcases List.mem_singleton.mp hx with h
    simp [h]
  | cons b bs ih =>
    intro r x hx
    simp only [List.foldl_cons]
    rcases List.mem_cons.mp hx with h | h
    · subst h
      exact le_trans (foldl_min_le_init bs (min x b)) (min_le_left x b)
    · rcases List.mem_cons.mp h with h2 | h2
      · subst h2
        exact le_trans (foldl_min_le_init bs (min r x)) (min_le_right r x)
      · exact ih (min r b) x (List.mem_cons_of_mem _ h2)

/-- The running maximum (as `runAnalysis` computes `distribution_max`) is an
upper bound of every pooled value. -/
theorem le_foldl_max : ∀ (rs : List ℚ) (r x : ℚ), x ∈ r :: rs →
    x ≤ rs.foldl max r := by
  intro rs
  induction rs with
  | nil =>
    intro r x hx
    simp only [List.foldl_nil]
    rcases List.mem_singleton.mp hx with h
    simp [h]
  | cons b bs ih =>
    intro r x hx
    simp only [List.foldl_cons]
    rcases List.mem_cons.mp hx with h | h
    · subst h
      exact le_trans (le_max_left x b) (le_foldl_max_init bs (max x b))
    · rcases List.mem_cons.mp h with h2 | h2
      · subst h2
        exact le_trans (le_max_right r x) (le_foldl_max_init bs (max r x))
      · exact ih (max r b) x (List.mem_cons_of_mem _ h2)

/-- Folding `min` over a constant list returns the seed. -/
theorem foldl_min_all_eq : ∀ (rs : List ℚ) (r : ℚ), (∀ y ∈ rs, y = r) →
    rs.foldl min r = r := by
  intro rs
  induction rs with
  | nil => intro r _; simp
  | cons b bs ih =>
    intro r h
    have hb : b = r := h b (List.mem_cons_self b bs)
    have hbs : ∀ y ∈ bs, y = r := fun y hy => h y (List.mem_cons_of_mem _ hy)
    simp only [List.foldl_cons, hb, min_self]
    exact ih r hbs

/-- Folding `max` over a constant list returns the seed. -/
theorem foldl_max_all_eq : ∀ (rs : List ℚ) (r : ℚ), (∀ y ∈ rs, y = r) →
    rs.foldl max r = r := by
  intro rs
  induction rs with
  | nil => intro r _; simp
  | cons b bs ih =>
    intro r h
    have hb : b = r := h b (List.mem_cons_self b bs)
    have hbs : ∀ y ∈ bs, y = r := fun y hy => h y (List.mem_cons_of_mem _ hy)
    simp only [List.foldl_cons, hb, max_self]
    exact ih r hbs

/-- With a positive bin width `(dmax - dmin) / 20`, a value at least `dmin`
lands in a bucket exactly when it is strictly below `dmax`: values equal to
`dmax` get bin index 20 and are rejected by the `bin < 20` guard. -/
theorem histCond_iff (dmin dmax ret : ℚ) (hle : dmin ≤ ret)
    (hlt : dmin < dmax) :
    (0 ≤ Int.floor ((ret - dmin) / ((dmax - dmin) / 20)) ∧
      Int.floor ((ret - dmin) / ((dmax - dmin) / 20)) < 20) ↔ ret < dmax := by
  have hw : (0 : ℚ) < (dmax - dmin) / 20 := by
    have : (0 : ℚ) < dmax - dmin := sub_pos.mpr hlt
    positivity
  have h20 : (20 : ℚ) * ((dmax - dmin) / 20) = dmax - dmin := by
    field_simp
  constructor
  · rintro ⟨_, hb⟩
    have hq : (ret - dmin) / ((dmax - dmin) / 20) < (20 : ℤ) :=
      Int.floor_lt.mp hb
    have hq' : (ret - dmin) / ((dmax - dmin) / 20) < (20 : ℚ) := by
      exact_mod_cast hq
    have := (div_lt_iff₀ hw).mp hq'
    linarith [this, h20]
  · intro hr
    constructor
    · apply Int.floor_nonneg.mpr
      apply div_nonneg (by linarith) hw.le
    · apply Int.floor_lt.mpr
      push_cast
      apply (div_lt_iff₀ hw).mpr
      linarith [h20]

/-- On a non-empty pool `buildHistogram` records the running minimum and
maximum. -/
theorem buildHistogram_min_max (r : ℚ) (rs : List ℚ) :
    (buildHistogram (r :: rs)).1 = some (rs.foldl min r) ∧
    (buildHistogram (r :: rs)).2.1 = some (rs.foldl max r) := by
  simp only [buildHistogram]
  split <;> simp

/-- Structural specification of the histogram block: when the recorded
bounds differ, the bucket sum counts exactly the pooled values strictly
below the maximum (values equal to the maximum are dropped by the
`bin < 20` guard); the recorded bounds enclose every pooled value; and when
the recorded bounds coincide (in particular when all pooled values are
equal, or the pool is empty) every bucket is zero. -/
theorem buildHistogram_spec (L : List ℚ) :
    (∀ mn mx : ℚ, (buildHistogram L).1 = some mn →
      (buildHistogram L).2.1 = some mx → mn < mx →
      (∀ y ∈ L, mn ≤ y ∧ y ≤ mx) ∧
      (buildHistogram L).2.2.sum = L.countP fun x => decide (x < mx)) ∧
    (∀ x : ℚ, (∀ y ∈ L, y = x) →
      (buildHistogram L).2.2 = List.replicate 20 0 ∧
      (buildHistogram L).1 = (buildHistogram L).2.1) := by
  match L with
  | [] =>
    refine ⟨fun mn mx hmn => ?_, fun x _ => ?_⟩
    · simp [buildHistogram] at hmn
    · simp [buildHistogram]
  | r :: rs =>
    obtain ⟨hbm, hbx⟩ := buildHistogram_min_max r rs
    constructor
    · intro mn mx hmn hmx hlt
      rw [hbm] at hmn
      rw [hbx] at hmx
      have hmn' : rs.foldl min r = mn := Option.some.inj hmn
      have hmx' : rs.foldl max r = mx := Option.some.inj hmx
      have hbound : ∀ y ∈ r :: rs, mn ≤ y ∧ y ≤ mx := fun y hy =>
        ⟨hmn' ▸ foldl_min_le rs r y hy, hmx' ▸ le_foldl_max rs r y hy⟩
      refine ⟨hbound, ?_⟩
      have hw : (0 : ℚ) < (mx - mn) / 20 := by
        have : (0 : ℚ) < mx - mn := sub_pos.mpr hlt
        positivity
      have hev : (buildHistogram (r :: rs)).2.2 =
          (r :: rs).foldl (histAdd mn ((mx - mn) / 20)) (List.replicate 20 0) := by
        simp only [buildHistogram, hmn', hmx']
        rw [if_pos hw]
      rw [hev, foldl_histAdd_sum mn ((mx - mn) / 20) (r :: rs)
        (List.replicate 20 0) (by simp)]
      simp only [List.sum_replicate, Nat.zero_mul, smul_eq_mul, mul_zero,
        zero_add]
      apply List.countP_congr
      intro y hy
      have h1 : mn ≤ y := (hbound y hy).1
      simp only [decide_eq_true_eq]
      exact histCond_iff mn mx y h1 hlt
    · intro x hall
      have hr : r = x := hall r (List.mem_cons_self r rs)
      have hrs : ∀ y ∈ rs, y = r := fun y hy =>
        (hall y (List.mem_cons_of_mem _ hy)).trans hr.symm
      have hmn' : rs.foldl min r = r := foldl_min_all_eq rs r hrs
      have hmx' : rs.foldl max r = r := foldl_max_all_eq rs r hrs
      constructor
      · simp only [buildHistogram, hmn', hmx']
        rw [if_neg (by simp)]
      · rw [hbm, hbx, hmn', hmx']

/-- The histogram members of a report are exactly the `buildHistogram`
output on the pooled returns. -/
theorem runAnalysis_histogram (fsqrt : ℚ → ℚ) (e : MonteCarloEngine)
    (cfg : SimulationConfig) :
    (runAnalysis fsqrt e cfg).distribution_min =
      (buildHistogram (pooledReturns (runAnalysis fsqrt e cfg))).1 ∧
    (runAnalysis fsqrt e cfg).distribution_max =
      (buildHistogram (pooledReturns (runAnalysis fsqrt e cfg))).2.1 ∧
    (runAnalysis fsqrt e cfg).return_distribution =
      (buildHistogram (pooledReturns (runAnalysis fsqrt e cfg))).2.2 := by
  refine ⟨?_, ?_, ?_⟩ <;> simp only [runAnalysis, pooledReturns]

/-- Counterexample to C2 as stated: at a concrete input the pooled returns
are `[10, 50, 10]`, so `distribution_max = 50 > 10 = distribution_min` and
all 3 pooled paths lie in `[10, 50]`, yet the bucket counts sum to 2 — the
path at the maximum is dropped by the `bin < 20` guard. -/
theorem claim_C2_counterexample :
    (runAnalysis fsqrt0 engSmall cfgSmall).distribution_min = some 10 ∧
    (runAnalysis fsqrt0 engSmall cfgSmall).distribution_max = some 50 ∧
    (10 : ℚ) < 50 ∧
    ((pooledReturns (runAnalysis fsqrt0 engSmall cfgSmall)).countP fun x =>
      decide ((10 : ℚ) ≤ x ∧ x ≤ 50)) = 3 ∧
    (runAnalysis fsqrt0 engSmall cfgSmall).return_distribution.sum = 2 := by
  refine ⟨?_, ?_, by norm_num, ?_, ?_⟩ <;>
    norm_num [runAnalysis, runPositionShuffle, runReturnPermutation,
      runBootstrap, engSmall, cfgSmall, tradeA, MonteCarloEngine.init,
      MonteCarloEngine.setTrades, MonteCarloEngine.setReturns, shufflePaths,
      permutationPaths, bootstrapPaths, shuffle, shuffleGo, bootstrapDraws,
      rngNext, simFromPnls, simFromPermuted, finalCapital, equityCurve,
      calculateMaxDrawdown, calculateSharpeRatio, stepReturns, fsqrt0,
      buildHistogram, histAdd, pooledReturns, min_def, max_def,
      List.countP_cons, List.replicate, List.set, List.sum_cons, List.sum_nil]

/-- C2 amended: whenever `distribution_max > distribution_min`, the recorded
bounds enclose every pooled return and the 20 bucket counts sum to the
number of pooled paths whose `total_return_pct` lies in
`[distribution_min, distribution_max)` — strictly below the max, since a
path at the max computes bin index 20 and is not counted; when all pooled
returns are equal (or the pool is empty) all buckets are 0 and
`distribution_min = distribution_max`. -/
theorem claim_C2_theorem (fsqrt : ℚ → ℚ) (e : MonteCarloEngine)
    (cfg : SimulationConfig) :
    (∀ mn mx : ℚ,
      (runAnalysis fsqrt e cfg).distribution_min = some mn →
      (runAnalysis fsqrt e cfg).distribution_max = some mx → mn < mx →
      (∀ y ∈ pooledReturns (runAnalysis fsqrt e cfg), mn ≤ y ∧ y ≤ mx) ∧
      (runAnalysis fsqrt e cfg).return_distribution.sum =
        (pooledReturns (runAnalysis fsqrt e cfg)).countP fun x =>
          decide (x < mx)) ∧
    (∀ x : ℚ, (∀ y ∈ pooledReturns (runAnalysis fsqrt e cfg), y = x) →
      (runAnalysis fsqrt e cfg).return_distribution = List.replicate 20 0 ∧
      (runAnalysis fsqrt e cfg).distribution_min =
        (runAnalysis fsqrt e cfg).distribution_max) := by
  obtain ⟨hm, hx, hh⟩ := runAnalysis_histogram fsqrt e cfg
  obtain ⟨hspec1, hspec2⟩ :=
    buildHistogram_spec (pooledReturns (runAnalysis fsqrt e cfg))
  constructor
  · intro mn mx hmn hmx hlt
    rw [hm] at hmn
    rw [hx] at hmx
    obtain ⟨hbound, hsum⟩ := hspec1 mn mx hmn hmx hlt
    exact ⟨hbound, by rw [hh, hsum]⟩
  · intro x hall
    obtain ⟨hz, heq⟩ := hspec2 x hall
    exact ⟨by rw [hh, hz], by rw [hm, hx, heq]⟩

/-- Witness for C2 (amended) at the concrete pool `[10, 50, 10]`. -/
theorem claim_C2_witness :
    (runAnalysis fsqrt0 engSmall cfgSmall).distribution_min = some 10 ∧
    (runAnalysis fsqrt0 engSmall cfgSmall).distribution_max = some 50 ∧
    (10 : ℚ) < 50 ∧
    (∀ y ∈ pooledReturns (runAnalysis fsqrt0 engSmall cfgSmall),
      (10 : ℚ) ≤ y ∧ y ≤ 50) ∧
    (runAnalysis fsqrt0 engSmall cfgSmall).return_distribution.sum =
      (pooledReturns (runAnalysis fsqrt0 engSmall cfgSmall)).countP fun x =>
        decide (x < (50 : ℚ)) := by
  have hmin : (runAnalysis fsqrt0 engSmall cfgSmall).distribution_min =
      some 10 := by
    norm_num [runAnalysis, runPositionShuffle, runReturnPermutation,
      runBootstrap, engSmall, cfgSmall, tradeA, MonteCarloEngine.init,
      MonteCarloEngine.setTrades, MonteCarloEngine.setReturns, shufflePaths,
      permutationPaths, bootstrapPaths, shuffle, shuffleGo, bootstrapDraws,
      rngNext, simFromPnls, simFromPermuted, finalCapital, equityCurve,
      calculateMaxDrawdown, calculateSharpeRatio, stepReturns, fsqrt0,
      buildHistogram, histAdd, min_def, max_def,
      List.replicate, List.set, List.sum_cons, List.sum_nil]
  have hmax : (runAnalysis fsqrt0 engSmall cfgSmall).distribution_max =
      some 50 := by
    norm_num [runAnalysis, runPositionShuffle, runReturnPermutation,
      runBootstrap, engSmall, cfgSmall, tradeA, MonteCarloEngine.init,
      MonteCarloEngine.setTrades, MonteCarloEngine.setReturns, shufflePaths,
      permutationPaths, bootstrapPaths, shuffle, shuffleGo, bootstrapDraws,
      rngNext, simFromPnls, simFromPermuted, finalCapital, equityCurve,
      calculateMaxDrawdown, calculateSharpeRatio, stepReturns, fsqrt0,
      buildHistogram, histAdd, min_def, max_def,
      List.replicate, List.set, List.sum_cons, List.sum_nil]
  obtain ⟨hbound, hsum⟩ :=
    (claim_C2_theorem fsqrt0 engSmall cfgSmall).1 10 50 hmin hmax
      (by norm_num)
  exact ⟨hmin, hmax, by norm_num, hbound, hsum⟩
